import Mathlib

namespace ScalableZipFs

/-!
Verification of scalable-zip-fs core components, shallowly embedded from the
C++ sources:

* `PathSplit` — path normalization (src/src/utils.cpp, `PathSplit::PathSplit`)
* the merged index (`ZipEntryManagerImpl::index_zipfile`, `lookup_dir`,
  `lookup_file`) and its FUSE consumers (`zipfs_getattr`, `zipfs_read`)
* the zip-optimizer command line and rewrite loop (zip-optimizer `main`)

Paths and entry names are modelled as `List Char` (byte strings), archive
entry contents as `List Nat` (byte sequences).  External library behaviour
(libzip reads, `getopt_long` scanning, `stoull`) is modelled by total
functions that realize the documented contract actually relied upon by the
code under `src/`.
-/

/-- State of the `PathSplit` constructor loop: the start offset of the
current segment, the segments retained so far, and the `last_was_dots`
flag. -/
structure SplitState where
  segStart : Nat
  segments : List (Nat × Nat)
  lastWasDots : Bool
deriving DecidableEq

/-- One iteration of the `while (i <= pathlen)` loop in
`PathSplit::PathSplit` (src/src/utils.cpp lines 25-50).  A segment boundary
is found when `i == pathlen` or the byte at `i` is a slash; an empty
segment is dropped, a `.` segment is dropped, a `..` segment pops the last
retained segment, and any other segment is retained as the offset pair
`(seg_start, seg_end)`. -/
def pathSplitStep (path : List Char) (pathlen : Nat) (st : SplitState) (i : Nat) : SplitState :=
  if i = pathlen ∨ path.getD i ' ' = '/' then
    let segLen := i - st.segStart
    if segLen = 0 then
      { segStart := i + 1, segments := st.segments, lastWasDots := false }
    else if segLen = 1 ∧ path.getD st.segStart ' ' = '.' then
      { segStart := i + 1, segments := st.segments, lastWasDots := true }
    else if segLen = 2 ∧ path.getD st.segStart ' ' = '.' ∧ path.getD (st.segStart + 1) ' ' = '.' then
      { segStart := i + 1, segments := st.segments.dropLast, lastWasDots := true }
    else
      { segStart := i + 1, segments := st.segments ++ [(st.segStart, i)], lastWasDots := false }
  else st

/-- Result of path normalization: retained segments as offset pairs into
the input, and the `is_dir_` flag. -/
structure PathSplit where
  segments : List (Nat × Nat)
  is_dir : Bool
deriving DecidableEq

/-- Embedding of `PathSplit::PathSplit(const char*, size_t)`
(src/src/utils.cpp lines 10-53): run the segment loop over positions
`0..pathlen` and combine the trailing-slash test with the final
`last_was_dots` flag. -/
def pathSplit (path : List Char) : PathSplit :=
  let pathlen := path.length
  let endSlash := 0 < pathlen ∧ path.getD (pathlen - 1) ' ' = '/'
  let final := (List.range (pathlen + 1)).foldl (pathSplitStep path pathlen) ⟨0, [], false⟩
  { segments := final.segments, is_dir := decide endSlash || final.lastWasDots }

/-- The bytes of one segment, as extracted by
`std::string(name + start, finish - start)` in the C++ callers. -/
def sliceOf (path : List Char) (seg : Nat × Nat) : List Char :=
  (path.drop seg.1).take (seg.2 - seg.1)

/-- All segment byte strings of a normalized path. -/
def segNames (path : List Char) (segs : List (Nat × Nat)) : List (List Char) :=
  segs.map (sliceOf path)

/-- A retained segment is nontrivial: it is a nonempty byte range inside the
input whose bytes are neither `.` nor `..`. -/
def goodSeg (path : List Char) (seg : Nat × Nat) : Prop :=
  seg.1 < seg.2 ∧ seg.2 ≤ path.length ∧
    sliceOf path seg ≠ [] ∧ sliceOf path seg ≠ ['.'] ∧ sliceOf path seg ≠ ['.', '.']

/-! ## Merged index (src/src/utils.cpp, `ZipEntryManagerImpl`) -/

/-- Embedding of `FileEntry` (src/include/zipent.hpp): descriptor of one
indexed file. -/
structure FileEntry where
  zip_path_idx : Nat
  size : Nat
  compressed_size : Nat
  offset : Nat
  need_decompression : Bool
deriving DecidableEq

/-- Embedding of `DirectoryEntry`: maps from child name to child directory
and from child name to file record, modelled as association lists (the C++
`unordered_map`s have unique keys; insertion only ever adds an absent
key). -/
inductive DirEntry where
  | mk (dirs : List (List Char × DirEntry)) (files : List (List Char × FileEntry))

def DirEntry.dirs : DirEntry → List (List Char × DirEntry)
  | .mk d _ => d

def DirEntry.files : DirEntry → List (List Char × FileEntry)
  | .mk _ f => f

/-- Embedding of `DirectoryEntry::find_dir`. -/
def DirEntry.find_dir (de : DirEntry) (name : List Char) : Option DirEntry :=
  de.dirs.lookup name

/-- Embedding of `DirectoryEntry::find_file`. -/
def DirEntry.find_file (de : DirEntry) (name : List Char) : Option FileEntry :=
  de.files.lookup name

/-- Replacing the subdirectory bound to key `k` (the in-place mutation of
`dir_it->second` through the map iterator). -/
def assocUpdate (l : List (List Char × DirEntry)) (k : List Char) (v : DirEntry) :
    List (List Char × DirEntry) :=
  l.map fun p => if p.1 = k then (k, v) else p

/-- The directory walk/create plus file insertion of
`ZipEntryManagerImpl::index_zipfile` (src/src/utils.cpp lines 652-727) for
one entry: walk/create a `DirectoryEntry` for every name in `dirPath`,
then, at the final directory, insert the file record under `fname` unless
a file of that name already exists (first archive wins; the duplicate is
dropped). -/
def insertFileEntry : DirEntry → List (List Char) → List Char → FileEntry → DirEntry
  | de, [], fname, fe =>
    if (de.files.lookup fname).isSome then de
    else .mk de.dirs (de.files ++ [(fname, fe)])
  | de, d :: rest, fname, fe =>
    match de.dirs.lookup d with
    | some sub => .mk (assocUpdate de.dirs d (insertFileEntry sub rest fname fe)) de.files
    | none => .mk (de.dirs ++ [(d, insertFileEntry (.mk [] []) rest fname fe)]) de.files

/-- The `zip_stat` fields of one archive entry that `index_zipfile`
consults (`ZIP_STAT_NAME` and `ZIP_STAT_SIZE` are assumed valid; entries
lacking them are skipped with a warning and carry no indexable data). -/
structure ZipStatE where
  name : List Char
  size : Nat
  comp_size : Nat
  comp_method : Nat
  has_comp_method : Bool
  has_comp_size : Bool
deriving DecidableEq

/-- Constant `ZIP_CM_STORE`: the stored (uncompressed) method code. -/
def ZIP_CM_STORE : Nat := 0

/-- The `name_len > 0 && name[name_len - 1] == '/'` test used to skip
directory entries. -/
def endsWithSlash (name : List Char) : Bool :=
  decide (0 < name.length ∧ name.getD (name.length - 1) ' ' = '/')

/-- The `FileEntry` built for entry number `i` of the archive with path
index `zip_idx` (src/src/utils.cpp lines 695-721). -/
def entryFileRecord (zip_idx i : Nat) (st : ZipStatE) : FileEntry :=
  let comp_method := if st.has_comp_method then st.comp_method else 0
  { zip_path_idx := zip_idx
    size := st.size
    compressed_size := st.comp_size
    offset := if st.has_comp_size then i else 0
    need_decompression := decide (comp_method ≠ ZIP_CM_STORE) }

/-- Processing of one archive entry by `index_zipfile`: skip directory
entries (trailing slash in the raw name, or a normalization marked
`is_dir`, or no components at all), otherwise insert a file record at the
normalized component path. -/
def indexEntry (zip_idx : Nat) (root : DirEntry) (ie : Nat × ZipStatE) : DirEntry :=
  if endsWithSlash ie.2.name then root
  else
    let ps := pathSplit ie.2.name
    if ps.is_dir then root
    else
      let names := segNames ie.2.name ps.segments
      if names = [] then root
      else insertFileEntry root names.dropLast (names.getLastD [])
        (entryFileRecord zip_idx ie.1 ie.2)

/-- The `for (zip_int64_t i = 0; i < num_entries; i++)` loop of
`index_zipfile`, carrying the entry index. -/
def indexEntries (zip_idx : Nat) (i : Nat) (root : DirEntry) : List ZipStatE → DirEntry
  | [] => root
  | st :: rest => indexEntries zip_idx (i + 1) (indexEntry zip_idx root (i, st)) rest

/-- Embedding of `ZipEntryManagerImpl`: the list of registered archive
paths and the root directory. -/
structure ZipEntryManagerImpl where
  zip_path_lst : List (List Char)
  root : DirEntry

/-- The `ZipEntryManagerImpl` constructor: the path list starts with the
empty string pushed as the root's name holder, so real archives get
indices starting at 1. -/
def ZipEntryManagerImpl.init : ZipEntryManagerImpl :=
  { zip_path_lst := [[]], root := .mk [] [] }

/-- Embedding of `ZipEntryManagerImpl::index_zipfile`: register the archive path (its
index is the current list length) and fold every entry into the tree. -/
def index_zipfile (m : ZipEntryManagerImpl) (path : List Char) (entries : List ZipStatE) :
    ZipEntryManagerImpl :=
  { zip_path_lst := m.zip_path_lst ++ [path]
    root := indexEntries m.zip_path_lst.length 0 m.root entries }

/-- Embedding of `ZipEntryManagerImpl::get_zip_path`. -/
def ZipEntryManagerImpl.get_zip_path (m : ZipEntryManagerImpl) (idx : Nat) : List Char :=
  m.zip_path_lst.getD idx []

/-- The component walk shared by both lookups: descend through `find_dir`
for each name, failing if any is missing. -/
def walkDirs : DirEntry → List (List Char) → Option DirEntry
  | de, [] => some de
  | de, n :: rest =>
    match de.find_dir n with
    | none => none
    | some sub => walkDirs sub rest

/-- Embedding of `ZipEntryManagerImpl::lookup_dir` (src/src/utils.cpp lines 761-783):
empty and `/` paths resolve to the root directly; otherwise walk the
normalized components. -/
def lookup_dir (m : ZipEntryManagerImpl) (path : List Char) : Option DirEntry :=
  if path = [] ∨ path = ['/'] then some m.root
  else walkDirs m.root (segNames path (pathSplit path).segments)

/-- Walk all names in `dirPath` as directories, then look the final name
up as a file. -/
def treeFileLookup : DirEntry → List (List Char) → List Char → Option FileEntry
  | de, [], fname => de.find_file fname
  | de, d :: rest, fname =>
    match de.find_dir d with
    | none => none
    | some sub => treeFileLookup sub rest fname

/-- Embedding of `ZipEntryManagerImpl::lookup_file` (src/src/utils.cpp lines 785-825):
reject the empty path, reject paths whose normalization is directory
shaped, reject paths with no components, then walk all but the last
component as directories and look the last component up as a file. -/
def lookup_file (m : ZipEntryManagerImpl) (path : List Char) : Option FileEntry :=
  if path = [] then none
  else
    let ps := pathSplit path
    if ps.is_dir then none
    else
      let names := segNames path ps.segments
      if names = [] then none
      else treeFileLookup m.root names.dropLast (names.getLastD [])

/-- Result of a `getattr` request as filled by `zipfs_getattr`. -/
inductive GetattrResult where
  | dir (nlink size : Nat)
  | file (nlink size : Nat)
  | enoent
deriving DecidableEq

/-- Embedding of `zipfs_getattr` (src/src/utils.cpp lines 415-441): try the directory
lookup first, then the file lookup; directories report link count 2 and
synthetic size 4096, files report link count 1 and their declared size. -/
def zipfs_getattr (m : ZipEntryManagerImpl) (path : List Char) : GetattrResult :=
  match lookup_dir m path with
  | some _ => .dir 2 4096
  | none =>
    match lookup_file m path with
    | some f => .file 1 f.size
    | none => .enoent

/-- A concrete single-archive index in which `x/a` becomes a directory
(via the entry `x/a/g`) before a later entry makes `x/a` a file, and `y/b`
becomes a file before a later entry `y/b/h` makes `y/b` a directory. -/
def collisionDemo : ZipEntryManagerImpl :=
  index_zipfile .init ['a', '.', 'z', 'i', 'p']
    [⟨['x', '/', 'a', '/', 'g'], 3, 3, 0, true, true⟩,
     ⟨['x', '/', 'a'], 5, 5, 0, true, true⟩,
     ⟨['y', '/', 'b'], 7, 7, 0, true, true⟩,
     ⟨['y', '/', 'b', '/', 'h'], 2, 2, 0, true, true⟩]

/-! ## Byte-range read (src/src/utils.cpp, `zipfs_read`) -/

/-- Outcome of a `zipfs_read` call: the bytes delivered (the C++ return
value is their count), or an errno-style failure. -/
inductive ReadResult where
  | ok (data : List Nat)
  | enoent
  | eio
deriving DecidableEq

/-- The discard loop of `zipfs_read` (src/src/utils.cpp lines 529-546):
starting at stream position `pos` of a stream of `l` bytes, repeatedly
read and discard chunks of at most 4096 bytes until `remaining` bytes are
consumed or the stream is exhausted (`zip_fread` of `n` bytes at position
`p` delivers `min n (l - p)` bytes); returns the final stream position. -/
def discardLoop (l pos remaining : Nat) : Nat :=
  if _h0 : remaining = 0 then pos
  else if _h1 : min (min 4096 remaining) (l - pos) = 0 then pos
  else discardLoop l (pos + min (min 4096 remaining) (l - pos))
    (remaining - min (min 4096 remaining) (l - pos))
termination_by remaining
decreasing_by omega

/-- Embedding of `zipfs_read` (src/src/utils.cpp lines 489-559).  The
surrounding I/O is abstracted by `store`, which maps an archive path and
entry locator to that entry's decompressed byte stream (`none` models a
failed `zip_open`/`zip_fopen_index`).  Bounds handling is the code's own:
reads at or past the declared size return no bytes, the requested length
is clamped so `offset + size` never exceeds the declared size, the
discard loop emulates seeking, and the final `zip_fread` delivers at most
the clamped length. -/
def zipfs_read (m : ZipEntryManagerImpl) (store : List Char → Nat → Option (List Nat))
    (path : List Char) (size offset : Nat) : ReadResult :=
  match lookup_file m path with
  | none => .enoent
  | some file =>
    if file.size ≤ offset then .ok []
    else
      let size := if file.size < offset + size then file.size - offset else size
      match store (m.get_zip_path file.zip_path_idx) file.offset with
      | none => .eio
      | some content =>
        let pos := if 0 < offset then discardLoop content.length 0 offset else 0
        .ok ((content.drop pos).take size)

/-- A one-file archive used to instantiate the read-clipping theorem: the
file `f` has declared size 4. -/
def readDemo : ZipEntryManagerImpl :=
  index_zipfile .init ['a', '.', 'z', 'i', 'p'] [⟨['f'], 4, 4, 0, true, true⟩]

/-! ## Cross-archive precedence (C1) -/

/-- An archive entry that `index_zipfile` accepts as a file whose
normalized component names are exactly `cs`. -/
abbrev acceptedWith (e : ZipStatE) (cs : List (List Char)) : Prop :=
  endsWithSlash e.name = false ∧ (pathSplit e.name).is_dir = false ∧
    segNames e.name (pathSplit e.name).segments = cs

/-- Invariant carried along one archive's indexing loop: the lookup at the
path of interest either still fails or already returns a record of this
very archive. -/
abbrev LookupInv (zi : Nat) (dirs : List (List Char)) (fname : List Char)
    (root : DirEntry) : Prop :=
  treeFileLookup root dirs fname = none ∨
    ∃ fe, treeFileLookup root dirs fname = some fe ∧ fe.zip_path_idx = zi

/-! ## Rewrite tool streaming loop (zip-optimizer `main`) -/

/-- One input entry as seen by the rewrite loop: raw name, decompressed
byte content, and the `zip_stat` compression-method field with its
validity bit. -/
structure OptEntry where
  name : List Char
  content : List Nat
  comp_method : Nat
  has_comp_method : Bool
deriving DecidableEq

/-- One `ZIP_SOURCE_READ` callback answer: `zip_fread` from position `pos`
of the entry's decompressed stream delivers at most `len` bytes. -/
def sourceReadChunk (content : List Nat) (pos len : Nat) : List Nat :=
  (content.drop pos).take len

/-- The destination writer's pull loop over the streaming source
(`zip_stream_source_cb`): read chunks of at most `bufSize` bytes until a
read returns no bytes, concatenating everything delivered. -/
def pullAll (content : List Nat) (bufSize : Nat) (pos : Nat) : List Nat :=
  if _h : sourceReadChunk content pos bufSize = [] then []
  else
    sourceReadChunk content pos bufSize ++
      pullAll content bufSize (pos + (sourceReadChunk content pos bufSize).length)
termination_by content.length - pos
decreasing_by
  have hlen : (sourceReadChunk content pos bufSize).length =
      min bufSize (content.length - pos) := by
    simp [sourceReadChunk]
  have h0 : (sourceReadChunk content pos bufSize).length ≠ 0 :=
    fun hc => _h (List.length_eq_zero.mp hc)
  omega

/-- Model of `zip_file_add` with `ZIP_FL_OVERWRITE`: replace the entry of the same
name if present, otherwise append. -/
def zipFileAdd (out : List (List Char × List Nat)) (name : List Char) (data : List Nat) :
    List (List Char × List Nat) :=
  if out.any (fun q => q.1 == name) then
    out.map (fun q => if q.1 == name then (name, data) else q)
  else out ++ [(name, data)]

/-- Counters and output archive accumulated by the rewrite loop. -/
structure OptState where
  out : List (List Char × List Nat)
  files_processed : Nat
  files_decompressed : Nat
deriving DecidableEq

/-- One iteration of the rewrite loop (src/src/utils.cpp lines 267-342):
skip directory entries; count the entry as decompressed when its
compression method is valid and not `ZIP_CM_STORE`; stream its
decompressed bytes into the output archive in stored form and count it as
processed. -/
def optStep (bufSize : Nat) (s : OptState) (e : OptEntry) : OptState :=
  if endsWithSlash e.name then s
  else
    { out := zipFileAdd s.out e.name (pullAll e.content bufSize 0)
      files_processed := s.files_processed + 1
      files_decompressed :=
        if e.has_comp_method ∧ e.comp_method ≠ ZIP_CM_STORE then s.files_decompressed + 1
        else s.files_decompressed }

/-- The whole rewrite pass over an input archive's entries. -/
def optimizeEntries (bufSize : Nat) (entries : List OptEntry) : OptState :=
  entries.foldl (optStep bufSize) ⟨[], 0, 0⟩

/-! ## Rewrite tool command line (zip-optimizer `main`, lines 172-229) -/

/-- The literal token `-h`. -/
def helpShortTok : List Char := ['-', 'h']

/-- The literal token `--help`. -/
def helpLongTok : List Char := ['-', '-', 'h', 'e', 'l', 'p']

/-- The literal token `--block-size`. -/
def blockSizeTok : List Char := ['-', '-', 'b', 'l', 'o', 'c', 'k', '-', 's', 'i', 'z', 'e']

/-- Value of a leading decimal-digit run. -/
def digitRunVal : List Char → Nat → Nat
  | [], acc => acc
  | c :: rest, acc => if c.isDigit then digitRunVal rest (acc * 10 + (c.toNat - 48)) else acc

/-- Model of `std::stoull` on the option argument: the value of the
leading digit run, or failure (`std::invalid_argument`, caught and turned
into exit 1) when the argument does not start with a digit.  Leading
whitespace and sign prefixes are not modelled. -/
def stoullModel (s : List Char) : Option Nat :=
  match s with
  | [] => none
  | c :: _ => if c.isDigit then some (digitRunVal s 0) else none

/-- The `case 'b'` option handler: parse the value and require it to be a
nonzero power of two (`block_size == 0 || (block_size & (block_size - 1))
!= 0` rejects), failure meaning exit 1. -/
def parseBlockSize (s : List Char) : Option Nat :=
  match stoullModel s with
  | none => none
  | some b => if b = 0 ∨ b &&& (b - 1) ≠ 0 then none else some b

/-- Byte-string starts-with test. -/
def startsWithChars : List Char → List Char → Bool
  | [], _ => true
  | _ :: _, [] => false
  | a :: as, b :: bs => a == b && startsWithChars as bs

/-- Outcome of the `getopt_long` scanning loop. -/
inductive ScanResult where
  | help
  | err
  | ok (block_size : Nat) (positionals : List (List Char))
deriving DecidableEq

/-- Model of the `getopt_long(argc, argv, "b:h", long_options, ...)` loop
for the option table of the rewrite tool: `-h`/`--help` returns help
immediately; `--block-size`/`-b` consume a value (from the next argument
or attached as `--block-size=V`/`-bV`) and validate it; `--` ends option
scanning; any other dash-led token of at least two characters is an
unknown option (exit 1); everything else is collected as a positional
argument (GNU argument permutation makes interleaved positionals
equivalent to trailing ones).  Short-option clustering is not modelled. -/
def optScan : List (List Char) → Nat → List (List Char) → ScanResult
  | [], bs, pos => .ok bs pos.reverse
  | t :: rest, bs, pos =>
    if t = helpShortTok ∨ t = helpLongTok then .help
    else if t = blockSizeTok ∨ t = ['-', 'b'] then
      match rest with
      | [] => .err
      | v :: rest2 =>
        match parseBlockSize v with
        | none => .err
        | some b => optScan rest2 b pos
    else if startsWithChars (blockSizeTok ++ ['=']) t then
      match parseBlockSize (t.drop 13) with
      | none => .err
      | some b => optScan rest b pos
    else if startsWithChars ['-', 'b'] t ∧ 2 < t.length then
      match parseBlockSize (t.drop 2) with
      | none => .err
      | some b => optScan rest b pos
    else if t = ['-', '-'] then .ok bs (pos.reverse ++ rest)
    else if 2 ≤ t.length ∧ t.getD 0 ' ' = '-' then .err
    else optScan rest bs (t :: pos)

/-- Exit decision of the rewrite tool's `main` before any archive I/O. -/
inductive CliOutcome where
  | exit (code : Nat)
  | run (block_size : Nat) (input output : List Char)
deriving DecidableEq

/-- The argument-handling prefix of zip-optimizer `main` (lines 172-229):
scan options; help exits 0; option errors exit 1; then require exactly
two positionals, a block size, and an existing input file, each failure
exiting 1; otherwise proceed to the rewrite with the parsed
configuration. -/
def optimizerCli (existsFn : List Char → Bool) (args : List (List Char)) : CliOutcome :=
  match optScan args 0 [] with
  | .help => .exit 0
  | .err => .exit 1
  | .ok bs pos =>
    if pos.length ≠ 2 then .exit 1
    else if bs = 0 then .exit 1
    else if existsFn (pos.getD 0 []) = false then .exit 1
    else .run bs (pos.getD 0 []) (pos.getD 1 [])

/-! ## Rewrite tool success summary (zip-optimizer `main`, lines 357-374) -/

/-- One line of the success summary printed by the rewrite tool. -/
inductive SummaryItem where
  | filesProcessed (n : Nat)
  | filesDecompressed (n : Nat)
  | blockSize (n : Nat)
  | inputSize (n : Nat)
  | outputSize (n : Nat)
  | sizeChangePercent
deriving DecidableEq

/-- The summary printed on every successful run (both the streaming
variant, src/src/utils.cpp lines 357-374, and the buffering variant,
src/unnamed/part_001 lines 211-228): counters and sizes are always
printed, but the percentage size-change line is printed only when the
output is strictly larger than the input (`if (output_size >
input_size)`). -/
def successSummary (fp fd bs inSz outSz : Nat) : List SummaryItem :=
  [.filesProcessed fp, .filesDecompressed fd, .blockSize bs, .inputSize inSz,
    .outputSize outSz] ++
    (if inSz < outSz then [.sizeChangePercent] else [])

/-! ## Theorems -/

theorem foldl_preserves {α σ : Type} (f : σ → α → σ) (I : σ → Prop)
    (l : List α) : ∀ (s : σ), (∀ t a, a ∈ l → I t → I (f t a)) → I s → I (l.foldl f s) := by
  induction l with
  | nil => intro s _ hs; simpa using hs
  | cons a l ih =>
    intro s h hs
    simp only [List.foldl_cons]
    exact ih (f s a) (fun t b hb => h t b (List.mem_cons_of_mem a hb))
      (h s a (List.mem_cons_self a l) hs)

theorem goodSeg_push (path : List Char) (s i : Nat) (hi : i ≤ path.length)
    (h0 : ¬ i - s = 0)
    (h1 : ¬ (i - s = 1 ∧ path.getD s ' ' = '.'))
    (h2 : ¬ (i - s = 2 ∧ path.getD s ' ' = '.' ∧ path.getD (s + 1) ' ' = '.')) :
    goodSeg path (s, i) := by
  have hsi : s < i := by omega
  have hlen : (sliceOf path (s, i)).length = i - s := by
    simp only [sliceOf, List.length_take, List.length_drop]
    omega
  have hgetD : ∀ j, s + j < path.length → j < i - s →
      path.getD (s + j) ' ' = (sliceOf path (s, i)).getD j ' ' := by
    intro j hj hji
    simp only [sliceOf, List.getD_eq_getElem?_getD, List.getElem?_take, if_pos hji,
      List.getElem?_drop]
  refine ⟨hsi, hi, ?_, ?_, ?_⟩
  · intro hc
    rw [hc] at hlen
    simp at hlen
    omega
  · intro hc
    have hl1 : i - s = 1 := by rw [hc] at hlen; simpa using hlen.symm
    refine h1 ⟨hl1, ?_⟩
    have := hgetD 0 (by omega) (by omega)
    rw [hc] at this
    simpa using this
  · intro hc
    have hl2 : i - s = 2 := by rw [hc] at hlen; simpa using hlen.symm
    refine h2 ⟨hl2, ?_, ?_⟩
    · have := hgetD 0 (by omega) (by omega)
      rw [hc] at this
      simpa using this
    · have := hgetD 1 (by omega) (by omega)
      rw [hc] at this
      simpa using this

theorem pathSplitStep_preserves (path : List Char) (st : SplitState) (i : Nat)
    (hi : i ≤ path.length)
    (h : ∀ seg ∈ st.segments, goodSeg path seg) :
    ∀ seg ∈ (pathSplitStep path path.length st i).segments, goodSeg path seg := by
  intro seg hseg
  unfold pathSplitStep at hseg
  by_cases hb : i = path.length ∨ path.getD i ' ' = '/'
  · rw [if_pos hb] at hseg
    by_cases h0 : i - st.segStart = 0
    · rw [if_pos h0] at hseg
      exact h seg hseg
    rw [if_neg h0] at hseg
    by_cases h1 : i - st.segStart = 1 ∧ path.getD st.segStart ' ' = '.'
    · rw [if_pos h1] at hseg
      exact h seg hseg
    rw [if_neg h1] at hseg
    by_cases h2 : i - st.segStart = 2 ∧ path.getD st.segStart ' ' = '.' ∧
        path.getD (st.segStart + 1) ' ' = '.'
    · rw [if_pos h2] at hseg
      exact h seg (List.dropLast_subset _ hseg)
    rw [if_neg h2] at hseg
    rcases List.mem_append.mp hseg with hseg | hseg
    · exact h seg hseg
    · have hs : seg = (st.segStart, i) := by simpa using hseg
      rw [hs]
      exact goodSeg_push path st.segStart i hi h0 h1 h2
  · rw [if_neg hb] at hseg
    exact h seg hseg

/-- C3: exact reference normalization behaviors from the spec and
src/tests/test_pathsplit.cpp: the empty path has no components and
`is_dir = false`; `..` and `a/..` normalize to no components with
`is_dir = true`; `../b` normalizes to the single component spanning
offsets (3,4) — the byte `b` — with `is_dir = false`. -/
theorem pathsplit_reference_behaviors :
    pathSplit [] = ⟨[], false⟩ ∧
    pathSplit ['.', '.'] = ⟨[], true⟩ ∧
    pathSplit ['a', '/', '.', '.'] = ⟨[], true⟩ ∧
    pathSplit ['.', '.', '/', 'b'] = ⟨[(3, 4)], false⟩ ∧
    sliceOf ['.', '.', '/', 'b'] (3, 4) = ['b'] := by
  decide

/-- C4: normalization output invariant — every retained segment of any
input is a nonempty range whose extracted bytes are neither `.` nor
`..`. -/
theorem pathsplit_components_never_dot_or_empty (path : List Char) (seg : Nat × Nat)
    (hmem : seg ∈ (pathSplit path).segments) :
    seg.1 < seg.2 ∧ sliceOf path seg ≠ [] ∧ sliceOf path seg ≠ ['.'] ∧
      sliceOf path seg ≠ ['.', '.'] := by
  have main : ∀ sg ∈ ((List.range (path.length + 1)).foldl
      (pathSplitStep path path.length) ⟨0, [], false⟩).segments, goodSeg path sg := by
    apply foldl_preserves (pathSplitStep path path.length)
      (fun st => ∀ sg ∈ st.segments, goodSeg path sg)
    · intro t a ha hInv
      exact pathSplitStep_preserves path t a (by
        have := List.mem_range.mp ha
        omega) hInv
    · intro sg hsg
      simp at hsg
  have hg : goodSeg path seg := main seg hmem
  exact ⟨hg.1, hg.2.2.1, hg.2.2.2.1, hg.2.2.2.2⟩

/-- C4 witness: the component of `../b` is a concrete instance of the
invariant. -/
theorem pathsplit_components_never_dot_or_empty_witness :
    (3, 4) ∈ (pathSplit ['.', '.', '/', 'b']).segments ∧
    ((3, 4) : Nat × Nat).1 < ((3, 4) : Nat × Nat).2 ∧
      sliceOf ['.', '.', '/', 'b'] (3, 4) ≠ [] ∧
      sliceOf ['.', '.', '/', 'b'] (3, 4) ≠ ['.'] ∧
      sliceOf ['.', '.', '/', 'b'] (3, 4) ≠ ['.', '.'] :=
  ⟨by decide, pathsplit_components_never_dot_or_empty ['.', '.', '/', 'b'] (3, 4) (by decide)⟩

/-- C5: `lookup_file` rejects every directory-shaped path — whenever
normalization sets `is_dir`, the lookup is "not found" regardless of the
index contents. -/
theorem lookup_file_rejects_dir_paths (m : ZipEntryManagerImpl) (path : List Char)
    (h : (pathSplit path).is_dir = true) :
    lookup_file m path = none := by
  unfold lookup_file
  by_cases hp : path = []
  · rw [if_pos hp]
  · rw [if_neg hp]
    simp only [h, if_true]

/-- C5 witness: the trailing-slash path `x/` is rejected on a concrete
index. -/
theorem lookup_file_rejects_dir_paths_witness :
    (pathSplit ['x', '/']).is_dir = true ∧
    lookup_file .init ['x', '/'] = none :=
  ⟨by decide, lookup_file_rejects_dir_paths .init ['x', '/'] (by decide)⟩

/-- C10: `lookup_dir` resolves every path whose normalization has no
components to the root — not only the special-cased `""` and `"/"`, but
also all-backtracking or separator-only inputs. -/
theorem lookup_dir_empty_components_gives_root (m : ZipEntryManagerImpl) (path : List Char)
    (h : (pathSplit path).segments = []) :
    lookup_dir m path = some m.root := by
  unfold lookup_dir
  by_cases hp : path = [] ∨ path = ['/']
  · rw [if_pos hp]
  · rw [if_neg hp, h]
    rfl

/-- C10 witness: `..`, `a/..` and `//` each resolve to the root of a
concrete index. -/
theorem lookup_dir_empty_components_gives_root_witness :
    ((pathSplit ['.', '.']).segments = [] ∧
      lookup_dir .init ['.', '.'] = some ZipEntryManagerImpl.init.root) ∧
    ((pathSplit ['a', '/', '.', '.']).segments = [] ∧
      lookup_dir .init ['a', '/', '.', '.'] = some ZipEntryManagerImpl.init.root) ∧
    ((pathSplit ['/', '/']).segments = [] ∧
      lookup_dir .init ['/', '/'] = some ZipEntryManagerImpl.init.root) :=
  ⟨⟨by decide, lookup_dir_empty_components_gives_root .init ['.', '.'] (by decide)⟩,
   ⟨by decide, lookup_dir_empty_components_gives_root .init ['a', '/', '.', '.'] (by decide)⟩,
   ⟨by decide, lookup_dir_empty_components_gives_root .init ['/', '/'] (by decide)⟩⟩

/-- C9: directory/file name collisions are not detected at build time.
In `collisionDemo`, `x/a` is a directory (from entry `x/a/g`) and the
later file entry `x/a` is still inserted, because the duplicate check
consults only the file map; afterwards both `lookup_dir` and
`lookup_file` succeed on the same path, and `zipfs_getattr` reports a
directory because the directory lookup is tried first.  The `y/b` half
shows the same for the reverse insertion order (file first, directory
created by a later entry). -/
theorem dir_file_name_collision :
    (lookup_dir collisionDemo ['x', '/', 'a']).isSome = true ∧
    lookup_file collisionDemo ['x', '/', 'a'] =
      some ⟨1, 5, 5, 1, false⟩ ∧
    zipfs_getattr collisionDemo ['x', '/', 'a'] = .dir 2 4096 ∧
    (lookup_dir collisionDemo ['y', '/', 'b']).isSome = true ∧
    lookup_file collisionDemo ['y', '/', 'b'] =
      some ⟨1, 7, 7, 2, false⟩ ∧
    zipfs_getattr collisionDemo ['y', '/', 'b'] = .dir 2 4096 := by
  decide

theorem discardLoop_eq (l : Nat) (remaining : Nat) :
    ∀ pos, pos ≤ l → discardLoop l pos remaining = min (pos + remaining) l := by
  induction remaining using Nat.strong_induction_on with
  | _ remaining ih =>
    intro pos hpos
    unfold discardLoop
    by_cases h0 : remaining = 0
    · rw [dif_pos h0]
      omega
    rw [dif_neg h0]
    by_cases h1 : min (min 4096 remaining) (l - pos) = 0
    · rw [dif_pos h1]
      omega
    rw [dif_neg h1]
    rw [ih (remaining - min (min 4096 remaining) (l - pos)) (by omega)
      (pos + min (min 4096 remaining) (l - pos)) (by omega)]
    omega

/-- C2: read clipping.  For an indexed file of declared size `S` whose
stored stream indeed holds `S` bytes, a read at `offset ≥ S` delivers no
bytes, and a read at `offset < S` with `offset + size > S` delivers
exactly `S - offset` bytes. -/
theorem read_clipping (m : ZipEntryManagerImpl) (store : List Char → Nat → Option (List Nat))
    (path : List Char) (f : FileEntry) (content : List Nat)
    (off1 sz1 off2 sz2 : Nat)
    (hf : lookup_file m path = some f)
    (hstore : store (m.get_zip_path f.zip_path_idx) f.offset = some content)
    (hlen : content.length = f.size)
    (h1 : f.size ≤ off1)
    (h2 : off2 < f.size) (h3 : f.size < off2 + sz2) :
    zipfs_read m store path sz1 off1 = .ok [] ∧
    ∃ data, zipfs_read m store path sz2 off2 = .ok data ∧ data.length = f.size - off2 := by
  constructor
  · unfold zipfs_read
    rw [hf]
    simp only [if_pos h1]
  · unfold zipfs_read
    simp only [hf]
    rw [if_neg (by omega : ¬ f.size ≤ off2)]
    simp only [hstore]
    have hclamp : (if f.size < off2 + sz2 then f.size - off2 else sz2) = f.size - off2 := by
      rw [if_pos h3]
    have hpos : (if 0 < off2 then discardLoop content.length 0 off2 else 0) = off2 := by
      by_cases hz : 0 < off2
      · rw [if_pos hz, discardLoop_eq content.length off2 0 (by omega)]
        omega
      · rw [if_neg hz]
        omega
    rw [hclamp, hpos]
    refine ⟨(content.drop off2).take (f.size - off2), rfl, ?_⟩
    simp only [List.length_take, List.length_drop]
    omega

/-- C2 witness: on the concrete one-file index with a 4-byte stream, a
read at offset 4 delivers nothing and a read of 5 bytes at offset 2
delivers exactly 2 bytes. -/
theorem read_clipping_witness :
    lookup_file readDemo ['f'] = some ⟨1, 4, 4, 0, false⟩ ∧
    (fun _ _ => some [10, 11, 12, 13] : List Char → Nat → Option (List Nat))
        (readDemo.get_zip_path 1) 0 = some [10, 11, 12, 13] ∧
    zipfs_read readDemo (fun _ _ => some [10, 11, 12, 13]) ['f'] 1 4 = .ok [] ∧
    ∃ data, zipfs_read readDemo (fun _ _ => some [10, 11, 12, 13]) ['f'] 5 2 = .ok data ∧
      data.length = 4 - 2 := by
  have h := read_clipping readDemo (fun _ _ => some [10, 11, 12, 13]) ['f']
    ⟨1, 4, 4, 0, false⟩ [10, 11, 12, 13] 4 1 2 5
    (by decide) rfl (by decide) (by decide) (by decide) (by decide)
  exact ⟨by decide, rfl, h.1, h.2⟩

theorem DirEntry.dirs_mk (a : List (List Char × DirEntry)) (b : List (List Char × FileEntry)) :
    (DirEntry.mk a b).dirs = a := rfl

theorem DirEntry.files_mk (a : List (List Char × DirEntry)) (b : List (List Char × FileEntry)) :
    (DirEntry.mk a b).files = b := rfl

theorem lookup_append_some {β : Type} (l1 l2 : List (List Char × β)) (k : List Char) (v : β)
    (h : l1.lookup k = some v) : (l1 ++ l2).lookup k = some v := by
  induction l1 with
  | nil => simp [List.lookup] at h
  | cons p l1 ih =>
    rcases p with ⟨k1, v1⟩
    by_cases hk : k == k1
    · simp only [List.lookup, hk] at h ⊢
      exact h
    · simp only [List.lookup, hk] at h ⊢
      exact ih h

theorem lookup_append_none {β : Type} (l1 l2 : List (List Char × β)) (k : List Char)
    (h : l1.lookup k = none) : (l1 ++ l2).lookup k = l2.lookup k := by
  induction l1 with
  | nil => simp
  | cons p l1 ih =>
    rcases p with ⟨k1, v1⟩
    by_cases hk : k == k1
    · simp [List.lookup, hk] at h
    · simp only [List.lookup, hk] at h ⊢
      exact ih h

theorem assocUpdate_cons (k1 : List Char) (v1 : DirEntry) (l : List (List Char × DirEntry))
    (k : List Char) (v : DirEntry) :
    assocUpdate ((k1, v1) :: l) k v =
      (if k1 = k then (k, v) else (k1, v1)) :: assocUpdate l k v := rfl

theorem lookup_assocUpdate_self (l : List (List Char × DirEntry)) (k : List Char)
    (v w : DirEntry) (h : l.lookup k = some w) :
    (assocUpdate l k v).lookup k = some v := by
  induction l with
  | nil => simp [List.lookup] at h
  | cons p l ih =>
    rcases p with ⟨k1, v1⟩
    rw [assocUpdate_cons]
    by_cases hk : k1 = k
    · rw [if_pos hk]
      simp [List.lookup]
    · rw [if_neg hk]
      have hbeq : (k == k1) = false := by
        simp
        exact fun hh => hk hh.symm
      simp only [List.lookup, hbeq] at h ⊢
      exact ih h

theorem lookup_assocUpdate_other (l : List (List Char × DirEntry)) (k k' : List Char)
    (v : DirEntry) (hne : k' ≠ k) :
    (assocUpdate l k v).lookup k' = l.lookup k' := by
  induction l with
  | nil => simp [assocUpdate]
  | cons p l ih =>
    rcases p with ⟨k1, v1⟩
    rw [assocUpdate_cons]
    by_cases h1 : k1 = k
    · rw [if_pos h1]
      have hb1 : (k' == k) = false := by simp [hne]
      have hb2 : (k' == k1) = false := by simp [h1 ▸ hne]
      simp only [List.lookup, hb1, hb2]
      exact ih
    · rw [if_neg h1]
      by_cases hk : k' == k1
      · simp only [List.lookup, hk]
      · simp only [List.lookup, hk]
        exact ih

theorem treeFileLookup_empty (dirs : List (List Char)) (fname : List Char) :
    treeFileLookup (.mk [] []) dirs fname = none := by
  cases dirs with
  | nil => simp [treeFileLookup, DirEntry.find_file, DirEntry.files_mk, List.lookup]
  | cons d rest => simp [treeFileLookup, DirEntry.find_dir, DirEntry.dirs_mk, List.lookup]

/-- Inserting a file at a component path makes the lookup of that exact
path succeed, returning the pre-existing record when there was one
(duplicates are skipped) and the fresh record otherwise. -/
theorem treeFileLookup_insert_self (dirs : List (List Char)) :
    ∀ (de : DirEntry) (fname : List Char) (fe : FileEntry),
    treeFileLookup (insertFileEntry de dirs fname fe) dirs fname =
      some ((treeFileLookup de dirs fname).getD fe) := by
  induction dirs with
  | nil =>
    intro de fname fe
    by_cases h : (de.files.lookup fname).isSome
    · obtain ⟨w, hw⟩ := Option.isSome_iff_exists.mp h
      have hins : insertFileEntry de [] fname fe = de := by
        simp [insertFileEntry, h]
      rw [hins]
      simp [treeFileLookup, DirEntry.find_file, hw]
    · have hnone : de.files.lookup fname = none := Option.not_isSome_iff_eq_none.mp h
      have hins : insertFileEntry de [] fname fe = .mk de.dirs (de.files ++ [(fname, fe)]) := by
        simp [insertFileEntry, h]
      rw [hins]
      simp only [treeFileLookup, DirEntry.find_file, DirEntry.files_mk, hnone,
        Option.getD_none]
      rw [lookup_append_none _ _ _ hnone]
      simp [List.lookup]
  | cons d rest ih =>
    intro de fname fe
    cases hld : de.dirs.lookup d with
    | some sub =>
      have hins : insertFileEntry de (d :: rest) fname fe =
          .mk (assocUpdate de.dirs d (insertFileEntry sub rest fname fe)) de.files := by
        simp [insertFileEntry, hld]
      have hfd := lookup_assocUpdate_self de.dirs d (insertFileEntry sub rest fname fe) sub hld
      rw [hins]
      simp only [treeFileLookup, DirEntry.find_dir, DirEntry.dirs_mk, hfd, hld,
        ih sub fname fe]
    | none =>
      have hins : insertFileEntry de (d :: rest) fname fe =
          .mk (de.dirs ++ [(d, insertFileEntry (.mk [] []) rest fname fe)]) de.files := by
        simp [insertFileEntry, hld]
      have hfd : (de.dirs ++ [(d, insertFileEntry (.mk [] []) rest fname fe)]).lookup d =
          some (insertFileEntry (.mk [] []) rest fname fe) := by
        rw [lookup_append_none _ _ _ hld]
        simp [List.lookup]
      rw [hins]
      simp only [treeFileLookup, DirEntry.find_dir, DirEntry.dirs_mk, hfd, hld,
        ih (.mk [] []) fname fe, treeFileLookup_empty, Option.getD_none]

/-- Inserting a file anywhere either leaves a given file lookup unchanged
or turns a failed lookup into the freshly inserted record. -/
theorem treeFileLookup_insert (dirs' : List (List Char)) :
    ∀ (de : DirEntry) (dirs : List (List Char)) (fname fname' : List Char) (fe : FileEntry),
    treeFileLookup (insertFileEntry de dirs' fname' fe) dirs fname =
        treeFileLookup de dirs fname ∨
      (treeFileLookup de dirs fname = none ∧
        treeFileLookup (insertFileEntry de dirs' fname' fe) dirs fname = some fe) := by
  induction dirs' with
  | nil =>
    intro de dirs fname fname' fe
    by_cases h : (de.files.lookup fname').isSome
    · left
      have hins : insertFileEntry de [] fname' fe = de := by
        simp [insertFileEntry, h]
      rw [hins]
    · have hnone' : de.files.lookup fname' = none := Option.not_isSome_iff_eq_none.mp h
      have hins : insertFileEntry de [] fname' fe =
          .mk de.dirs (de.files ++ [(fname', fe)]) := by
        simp [insertFileEntry, h]
      rw [hins]
      cases dirs with
      | nil =>
        cases hT : de.files.lookup fname with
        | some v =>
          left
          simp only [treeFileLookup, DirEntry.find_file, DirEntry.files_mk, hT]
          exact lookup_append_some _ _ _ _ hT
        | none =>
          simp only [treeFileLookup, DirEntry.find_file, DirEntry.files_mk, hT]
          rw [lookup_append_none _ _ _ hT]
          by_cases hf : fname == fname'
          · right
            have heq : fname = fname' := by simpa using hf
            subst heq
            simp [List.lookup]
          · left
            simp [List.lookup, hf]
      | cons dd rest =>
        left
        simp only [treeFileLookup, DirEntry.find_dir, DirEntry.dirs_mk]
  | cons d' rest' ih =>
    intro de dirs fname fname' fe
    cases hld : de.dirs.lookup d' with
    | some sub =>
      have hins : insertFileEntry de (d' :: rest') fname' fe =
          .mk (assocUpdate de.dirs d' (insertFileEntry sub rest' fname' fe)) de.files := by
        simp [insertFileEntry, hld]
      rw [hins]
      cases dirs with
      | nil =>
        left
        simp only [treeFileLookup, DirEntry.find_file, DirEntry.files_mk]
      | cons d rest =>
        by_cases hdd : d = d'
        · subst hdd
          have hfd := lookup_assocUpdate_self de.dirs d
            (insertFileEntry sub rest' fname' fe) sub hld
          rcases ih sub rest fname fname' fe with hcase | ⟨hn, hs⟩
          · left
            simp only [treeFileLookup, DirEntry.find_dir, DirEntry.dirs_mk, hfd, hld, hcase]
          · right
            constructor
            · simp only [treeFileLookup, DirEntry.find_dir, hld, hn]
            · simp only [treeFileLookup, DirEntry.find_dir, DirEntry.dirs_mk, hfd, hs]
        · left
          have hfd := lookup_assocUpdate_other de.dirs d' d
            (insertFileEntry sub rest' fname' fe) hdd
          simp only [treeFileLookup, DirEntry.find_dir, DirEntry.dirs_mk, hfd]
    | none =>
      have hins : insertFileEntry de (d' :: rest') fname' fe =
          .mk (de.dirs ++ [(d', insertFileEntry (.mk [] []) rest' fname' fe)]) de.files := by
        simp [insertFileEntry, hld]
      rw [hins]
      cases dirs with
      | nil =>
        left
        simp only [treeFileLookup, DirEntry.find_file, DirEntry.files_mk]
      | cons d rest =>
        by_cases hdd : d = d'
        · subst hdd
          have hT : treeFileLookup de (d :: rest) fname = none := by
            simp only [treeFileLookup, DirEntry.find_dir, hld]
          have hfd : (de.dirs ++
              [(d, insertFileEntry (.mk [] []) rest' fname' fe)]).lookup d =
              some (insertFileEntry (.mk [] []) rest' fname' fe) := by
            rw [lookup_append_none _ _ _ hld]
            simp [List.lookup]
          rcases ih (.mk [] []) rest fname fname' fe with hcase | ⟨_, hs⟩
          · left
            rw [treeFileLookup_empty] at hcase
            rw [hT]
            simp only [treeFileLookup, DirEntry.find_dir, DirEntry.dirs_mk, hfd, hcase]
          · right
            refine ⟨hT, ?_⟩
            simp only [treeFileLookup, DirEntry.find_dir, DirEntry.dirs_mk, hfd, hs]
        · left
          have hfd : (de.dirs ++
              [(d', insertFileEntry (.mk [] []) rest' fname' fe)]).lookup d =
              de.dirs.lookup d := by
            cases hl2 : de.dirs.lookup d with
            | some w => exact lookup_append_some _ _ _ _ hl2
            | none =>
              rw [lookup_append_none _ _ _ hl2]
              have hbeq : (d == d') = false := by simp [hdd]
              simp [List.lookup, hbeq]
          simp only [treeFileLookup, DirEntry.find_dir, DirEntry.dirs_mk, hfd]

theorem entryFileRecord_zip_path_idx (z i : Nat) (st : ZipStatE) :
    (entryFileRecord z i st).zip_path_idx = z := rfl

/-- Each entry either leaves the tree unchanged or performs a single file
insertion whose record carries the archive index of the current
archive. -/
theorem indexEntry_eq (zip_idx : Nat) (root : DirEntry) (ie : Nat × ZipStatE) :
    indexEntry zip_idx root ie = root ∨
    ∃ dirs fname, indexEntry zip_idx root ie =
      insertFileEntry root dirs fname (entryFileRecord zip_idx ie.1 ie.2) := by
  by_cases h1 : endsWithSlash ie.2.name = true
  · left
    simp [indexEntry, h1]
  by_cases h2 : (pathSplit ie.2.name).is_dir = true
  · left
    simp [indexEntry, h1, h2]
  by_cases h3 : segNames ie.2.name (pathSplit ie.2.name).segments = []
  · left
    simp [indexEntry, h1, h2, h3]
  · right
    exact ⟨(segNames ie.2.name (pathSplit ie.2.name).segments).dropLast,
      (segNames ie.2.name (pathSplit ie.2.name).segments).getLastD [],
      by simp [indexEntry, h1, h2, h3]⟩

/-- Indexing further entries never changes an already successful file
lookup: the first record inserted at a path is the one every later lookup
returns. -/
theorem indexEntries_preserves_found (zi : Nat) (dirs : List (List Char)) (fname : List Char)
    (fe : FileEntry) :
    ∀ (l : List ZipStatE) (i : Nat) (root : DirEntry),
      treeFileLookup root dirs fname = some fe →
      treeFileLookup (indexEntries zi i root l) dirs fname = some fe := by
  intro l
  induction l with
  | nil =>
    intro i root h
    simpa [indexEntries] using h
  | cons st rest ih =>
    intro i root h
    simp only [indexEntries]
    apply ih
    rcases indexEntry_eq zi root (i, st) with heq | ⟨ds, fn, heq⟩
    · rw [heq]
      exact h
    · rw [heq]
      rcases treeFileLookup_insert ds root dirs fname fn
        (entryFileRecord zi (i, st).1 (i, st).2) with hc | ⟨hn, _⟩
      · rw [hc]
        exact h
      · rw [h] at hn
        exact Option.noConfusion hn

/-- If an archive contains an accepted entry whose normalized components
are `cs`, then after its indexing loop the lookup at `cs` returns a record
carrying this archive's index. -/
theorem indexEntries_finds (zi : Nat) (cs : List (List Char)) (hne : cs ≠ []) :
    ∀ (l : List ZipStatE) (i : Nat) (root : DirEntry),
      LookupInv zi cs.dropLast (cs.getLastD []) root →
      (∃ e ∈ l, acceptedWith e cs) →
      ∃ fe, treeFileLookup (indexEntries zi i root l) cs.dropLast (cs.getLastD []) = some fe ∧
        fe.zip_path_idx = zi := by
  intro l
  induction l with
  | nil =>
    intro i root _ hex
    simp at hex
  | cons st rest ih =>
    intro i root hinv hex
    simp only [indexEntries]
    rcases hex with ⟨e, he, hacc⟩
    rcases List.mem_cons.mp he with heq | hmem
    · subst heq
      obtain ⟨h1, h2, h3⟩ := hacc
      have hstep : indexEntry zi root (i, e) =
          insertFileEntry root cs.dropLast (cs.getLastD []) (entryFileRecord zi i e) := by
        simp [indexEntry, h1, h2, h3, hne]
      have hins := treeFileLookup_insert_self cs.dropLast root (cs.getLastD [])
        (entryFileRecord zi i e)
      rw [hstep]
      rcases hinv with hn | ⟨fe0, hs, hidx⟩
      · have hres : treeFileLookup (insertFileEntry root cs.dropLast (cs.getLastD [])
            (entryFileRecord zi i e)) cs.dropLast (cs.getLastD []) =
            some (entryFileRecord zi i e) := by
          rw [hins, hn]
          rfl
        exact ⟨entryFileRecord zi i e,
          indexEntries_preserves_found zi _ _ _ rest (i + 1) _ hres, rfl⟩
      · have hres : treeFileLookup (insertFileEntry root cs.dropLast (cs.getLastD [])
            (entryFileRecord zi i e)) cs.dropLast (cs.getLastD []) = some fe0 := by
          rw [hins, hs]
          rfl
        exact ⟨fe0, indexEntries_preserves_found zi _ _ _ rest (i + 1) _ hres, hidx⟩
    · refine ih (i + 1) (indexEntry zi root (i, st)) ?_ ⟨e, hmem, hacc⟩
      rcases indexEntry_eq zi root (i, st) with heq2 | ⟨ds, fn, heq2⟩
      · rw [heq2]
        exact hinv
      · rw [heq2]
        rcases treeFileLookup_insert ds root cs.dropLast (cs.getLastD []) fn
          (entryFileRecord zi (i, st).1 (i, st).2) with hc | ⟨hn, hs⟩
        · rcases hinv with hn | ⟨fe0, hs0, hidx⟩
          · exact Or.inl (hc.trans hn)
          · exact Or.inr ⟨fe0, hc.trans hs0, hidx⟩
        · exact Or.inr ⟨entryFileRecord zi (i, st).1 (i, st).2, hs,
            entryFileRecord_zip_path_idx _ _ _⟩

/-- On a path that normalizes to the nonempty file components `cs`,
`lookup_file` is exactly the tree lookup at `cs`. -/
theorem lookup_file_eq (m : ZipEntryManagerImpl) (p : List Char) (cs : List (List Char))
    (hp0 : p ≠ []) (hpd : (pathSplit p).is_dir = false)
    (hcs : segNames p (pathSplit p).segments = cs) (hne : cs ≠ []) :
    lookup_file m p = treeFileLookup m.root cs.dropLast (cs.getLastD []) := by
  simp [lookup_file, hp0, hpd, hcs, hne]

theorem precedence_one_side (X Y : List ZipStatE) (zpX zpY p : List Char)
    (cs : List (List Char))
    (hp0 : p ≠ []) (hpd : (pathSplit p).is_dir = false)
    (hcs : segNames p (pathSplit p).segments = cs) (hne : cs ≠ [])
    (hX : ∃ e ∈ X, acceptedWith e cs) :
    ∃ fe, lookup_file (index_zipfile (index_zipfile .init zpX X) zpY Y) p = some fe ∧
      fe.zip_path_idx = 1 ∧
      (index_zipfile (index_zipfile .init zpX X) zpY Y).get_zip_path fe.zip_path_idx = zpX := by
  obtain ⟨fe, hfe, hidx⟩ := indexEntries_finds 1 cs hne X 0 (.mk [] [])
    (Or.inl (treeFileLookup_empty _ _)) hX
  have hroot2 : treeFileLookup (indexEntries 2 0 (indexEntries 1 0 (.mk [] []) X) Y)
      cs.dropLast (cs.getLastD []) = some fe :=
    indexEntries_preserves_found 2 _ _ _ Y 0 _ hfe
  refine ⟨fe, ?_, hidx, ?_⟩
  · rw [lookup_file_eq _ p cs hp0 hpd hcs hne]
    exact hroot2
  · rw [hidx]
    rfl

/-- C1: cross-archive precedence.  If both archive `A` and archive `B`
contain a file entry whose path normalizes to the nonempty component
sequence `cs` (the normalization of the query path `p`), then after a
fresh manager indexes `A` and then `B`, `lookup_file p` returns a record
whose archive index is 1 — the index assigned to the first archive — and
that index resolves to `A`'s registered path; indexing in the reverse
order makes the same lookup resolve to `B` instead. -/
theorem cross_archive_precedence (A B : List ZipStatE) (zpA zpB p : List Char)
    (cs : List (List Char))
    (hp0 : p ≠ []) (hpd : (pathSplit p).is_dir = false)
    (hcs : segNames p (pathSplit p).segments = cs) (hne : cs ≠ [])
    (hA : ∃ e ∈ A, acceptedWith e cs) (hB : ∃ e ∈ B, acceptedWith e cs) :
    (∃ fe, lookup_file (index_zipfile (index_zipfile .init zpA A) zpB B) p = some fe ∧
      fe.zip_path_idx = 1 ∧
      (index_zipfile (index_zipfile .init zpA A) zpB B).get_zip_path fe.zip_path_idx = zpA) ∧
    (∃ fe, lookup_file (index_zipfile (index_zipfile .init zpB B) zpA A) p = some fe ∧
      fe.zip_path_idx = 1 ∧
      (index_zipfile (index_zipfile .init zpB B) zpA A).get_zip_path fe.zip_path_idx = zpB) :=
  ⟨precedence_one_side A B zpA zpB p cs hp0 hpd hcs hne hA,
   precedence_one_side B A zpB zpA p cs hp0 hpd hcs hne hB⟩

/-- C1 witness: two one-entry archives both holding `x/y.txt` (with sizes
1 and 2), indexed in both orders. -/
theorem cross_archive_precedence_witness :
    (['x', '/', 'y', '.', 't', 'x', 't'] : List Char) ≠ [] ∧
    (pathSplit ['x', '/', 'y', '.', 't', 'x', 't']).is_dir = false ∧
    segNames ['x', '/', 'y', '.', 't', 'x', 't']
      (pathSplit ['x', '/', 'y', '.', 't', 'x', 't']).segments =
      [['x'], ['y', '.', 't', 'x', 't']] ∧
    ([['x'], ['y', '.', 't', 'x', 't']] : List (List Char)) ≠ [] ∧
    (∃ e ∈ [(⟨['x', '/', 'y', '.', 't', 'x', 't'], 1, 1, 0, true, true⟩ : ZipStatE)],
      acceptedWith e [['x'], ['y', '.', 't', 'x', 't']]) ∧
    (∃ e ∈ [(⟨['x', '/', 'y', '.', 't', 'x', 't'], 2, 2, 0, true, true⟩ : ZipStatE)],
      acceptedWith e [['x'], ['y', '.', 't', 'x', 't']]) ∧
    ((∃ fe, lookup_file (index_zipfile (index_zipfile .init ['A']
        [⟨['x', '/', 'y', '.', 't', 'x', 't'], 1, 1, 0, true, true⟩]) ['B']
        [⟨['x', '/', 'y', '.', 't', 'x', 't'], 2, 2, 0, true, true⟩])
        ['x', '/', 'y', '.', 't', 'x', 't'] = some fe ∧
      fe.zip_path_idx = 1 ∧
      (index_zipfile (index_zipfile .init ['A']
        [⟨['x', '/', 'y', '.', 't', 'x', 't'], 1, 1, 0, true, true⟩]) ['B']
        [⟨['x', '/', 'y', '.', 't', 'x', 't'], 2, 2, 0, true, true⟩]).get_zip_path
        fe.zip_path_idx = ['A']) ∧
    (∃ fe, lookup_file (index_zipfile (index_zipfile .init ['B']
        [⟨['x', '/', 'y', '.', 't', 'x', 't'], 2, 2, 0, true, true⟩]) ['A']
        [⟨['x', '/', 'y', '.', 't', 'x', 't'], 1, 1, 0, true, true⟩])
        ['x', '/', 'y', '.', 't', 'x', 't'] = some fe ∧
      fe.zip_path_idx = 1 ∧
      (index_zipfile (index_zipfile .init ['B']
        [⟨['x', '/', 'y', '.', 't', 'x', 't'], 2, 2, 0, true, true⟩]) ['A']
        [⟨['x', '/', 'y', '.', 't', 'x', 't'], 1, 1, 0, true, true⟩]).get_zip_path
        fe.zip_path_idx = ['B'])) :=
  ⟨by decide, by decide, by decide, by decide, by decide, by decide,
    cross_archive_precedence
      [⟨['x', '/', 'y', '.', 't', 'x', 't'], 1, 1, 0, true, true⟩]
      [⟨['x', '/', 'y', '.', 't', 'x', 't'], 2, 2, 0, true, true⟩]
      ['A'] ['B'] ['x', '/', 'y', '.', 't', 'x', 't'] [['x'], ['y', '.', 't', 'x', 't']]
      (by decide) (by decide) (by decide) (by decide) (by decide) (by decide)⟩

theorem pullAll_eq_drop (content : List Nat) (bufSize : Nat) (hbuf : 0 < bufSize) :
    ∀ pos, pullAll content bufSize pos = content.drop pos := by
  have hx : ∀ (x : List Nat) (b : Nat), x.take b ++ x.drop (x.take b).length = x := by
    intro x b
    rw [List.length_take]
    rcases Nat.le_total b x.length with hb | hb
    · rw [Nat.min_eq_left hb]
      exact List.take_append_drop b x
    · rw [Nat.min_eq_right hb, List.take_of_length_le hb, List.drop_length,
        List.append_nil]
  have H : ∀ (n pos : Nat), content.length - pos ≤ n →
      pullAll content bufSize pos = content.drop pos := by
    intro n
    induction n with
    | zero =>
      intro pos hpos
      have hle : content.length ≤ pos := by omega
      have hchunk : sourceReadChunk content pos bufSize = [] := by
        simp [sourceReadChunk, List.drop_eq_nil_of_le hle]
      unfold pullAll
      rw [dif_pos hchunk, List.drop_eq_nil_of_le hle]
    | succ n ihn =>
      intro pos hpos
      unfold pullAll
      by_cases hchunk : sourceReadChunk content pos bufSize = []
      · rw [dif_pos hchunk]
        have hlen := congrArg List.length hchunk
        simp only [sourceReadChunk, List.length_take, List.length_drop,
          List.length_nil] at hlen
        have hle : content.length ≤ pos := by omega
        rw [List.drop_eq_nil_of_le hle]
      · rw [dif_neg hchunk]
        have hlen : (sourceReadChunk content pos bufSize).length =
            min bufSize (content.length - pos) := by
          simp [sourceReadChunk]
        have hne : (sourceReadChunk content pos bufSize).length ≠ 0 :=
          fun hc => hchunk (List.length_eq_zero.mp hc)
        rw [ihn (pos + (sourceReadChunk content pos bufSize).length) (by omega)]
        have hdd : content.drop (pos + (sourceReadChunk content pos bufSize).length) =
            (content.drop pos).drop (sourceReadChunk content pos bufSize).length :=
          (List.drop_drop _ _ _).symm
        rw [hdd]
        exact hx (content.drop pos) bufSize
  exact fun pos => H (content.length - pos) pos (Nat.le_refl _)

theorem optimize_fold (bufSize : Nat) (hbuf : 0 < bufSize) :
    ∀ (entries : List OptEntry) (s : OptState),
      (∀ e ∈ entries, e.has_comp_method = true → e.comp_method = ZIP_CM_STORE) →
      ((entries.filter fun e => !endsWithSlash e.name).map OptEntry.name).Nodup →
      (∀ e ∈ entries, endsWithSlash e.name = false → ∀ q ∈ s.out, q.1 ≠ e.name) →
      (entries.foldl (optStep bufSize) s).out =
        s.out ++ (entries.filter fun e => !endsWithSlash e.name).map
          (fun e => (e.name, e.content)) ∧
      (entries.foldl (optStep bufSize) s).files_decompressed = s.files_decompressed := by
  intro entries
  induction entries with
  | nil =>
    intro s _ _ _
    simp
  | cons e rest ih =>
    intro s hstored hnodup hdisj
    simp only [List.foldl_cons]
    by_cases hdir : endsWithSlash e.name = true
    · have hstep : optStep bufSize s e = s := by
        simp [optStep, hdir]
      rw [hstep]
      obtain ⟨h1, h2⟩ := ih s
        (fun x hx => hstored x (List.mem_cons_of_mem e hx))
        (by simpa [List.filter_cons, hdir] using hnodup)
        (fun x hx hxd => hdisj x (List.mem_cons_of_mem e hx) hxd)
      refine ⟨?_, h2⟩
      rw [h1]
      simp [List.filter_cons, hdir]
    · have hdir' : endsWithSlash e.name = false := by
        cases hh : endsWithSlash e.name
        · rfl
        · exact absurd hh hdir
      have hany : (s.out.any fun q => q.1 == e.name) = false := by
        rw [List.any_eq_false]
        intro q hq
        simpa using hdisj e (List.mem_cons_self e rest) hdir' q hq
      have hfd : ¬ (e.has_comp_method = true ∧ e.comp_method ≠ ZIP_CM_STORE) := by
        rintro ⟨ha, hb⟩
        exact hb (hstored e (List.mem_cons_self e rest) ha)
      have hstep : optStep bufSize s e =
          ⟨s.out ++ [(e.name, e.content)], s.files_processed + 1,
            s.files_decompressed⟩ := by
        simp [optStep, hdir, zipFileAdd, hany, hfd, pullAll_eq_drop e.content bufSize hbuf 0]
      rw [hstep]
      have hfcons : (e :: rest).filter (fun e => !endsWithSlash e.name) =
          e :: rest.filter (fun e => !endsWithSlash e.name) := by
        simp [List.filter_cons, hdir']
      have hnotin : e.name ∉ (rest.filter fun e => !endsWithSlash e.name).map OptEntry.name := by
        rw [hfcons] at hnodup
        exact (List.nodup_cons.mp (by simpa using hnodup)).1
      obtain ⟨h1, h2⟩ := ih ⟨s.out ++ [(e.name, e.content)], s.files_processed + 1,
          s.files_decompressed⟩
        (fun x hx => hstored x (List.mem_cons_of_mem e hx))
        (by rw [hfcons] at hnodup; exact (List.nodup_cons.mp (by simpa using hnodup)).2)
        (by
          intro x hx hxd q hq
          rcases List.mem_append.mp hq with hq | hq
          · exact hdisj x (List.mem_cons_of_mem e hx) hxd q hq
          · have hqe : q = (e.name, e.content) := by simpa using hq
            rw [hqe]
            intro hcontra
            simp only at hcontra
            apply hnotin
            rw [hcontra]
            exact List.mem_map_of_mem OptEntry.name (List.mem_filter.mpr ⟨hx, by simp [hxd]⟩))
      refine ⟨?_, h2⟩
      rw [h1, hfcons]
      simp

/-- C6: rewrite idempotence.  On an input archive whose entries are all
already stored (no valid compression method other than `ZIP_CM_STORE`)
and whose non-directory entry names are distinct, the rewrite pass
reports zero files decompressed and its output holds exactly the
non-directory input entries with byte-identical decompressed content. -/
theorem rewrite_idempotence (entries : List OptEntry) (bufSize : Nat) (hbuf : 0 < bufSize)
    (hstored : ∀ e ∈ entries, e.has_comp_method = true → e.comp_method = ZIP_CM_STORE)
    (hnodup : ((entries.filter fun e => !endsWithSlash e.name).map OptEntry.name).Nodup) :
    (optimizeEntries bufSize entries).files_decompressed = 0 ∧
    (optimizeEntries bufSize entries).out =
      (entries.filter fun e => !endsWithSlash e.name).map (fun e => (e.name, e.content)) := by
  obtain ⟨h1, h2⟩ := optimize_fold bufSize hbuf entries ⟨[], 0, 0⟩ hstored hnodup
    (by intro e _ _ q hq; simp at hq)
  exact ⟨h2, by simpa using h1⟩

/-- C6 witness: a three-entry stored archive (one directory entry `b/`,
two files) rewrites with zero decompressions and byte-identical
contents. -/
theorem rewrite_idempotence_witness :
    0 < 4096 ∧
    (∀ e ∈ [(⟨['a'], [1, 2, 3], 0, true⟩ : OptEntry), ⟨['b', '/'], [9], 8, false⟩,
        ⟨['b'], [4, 5], 0, true⟩], e.has_comp_method = true → e.comp_method = ZIP_CM_STORE) ∧
    (([(⟨['a'], [1, 2, 3], 0, true⟩ : OptEntry), ⟨['b', '/'], [9], 8, false⟩,
        ⟨['b'], [4, 5], 0, true⟩].filter fun e => !endsWithSlash e.name).map
        OptEntry.name).Nodup ∧
    (optimizeEntries 4096 [(⟨['a'], [1, 2, 3], 0, true⟩ : OptEntry), ⟨['b', '/'], [9], 8, false⟩,
        ⟨['b'], [4, 5], 0, true⟩]).files_decompressed = 0 ∧
    (optimizeEntries 4096 [(⟨['a'], [1, 2, 3], 0, true⟩ : OptEntry), ⟨['b', '/'], [9], 8, false⟩,
        ⟨['b'], [4, 5], 0, true⟩]).out =
      ([(⟨['a'], [1, 2, 3], 0, true⟩ : OptEntry), ⟨['b', '/'], [9], 8, false⟩,
        ⟨['b'], [4, 5], 0, true⟩].filter fun e => !endsWithSlash e.name).map
        (fun e => (e.name, e.content)) :=
  ⟨by decide, by decide, by decide,
    rewrite_idempotence
      [⟨['a'], [1, 2, 3], 0, true⟩, ⟨['b', '/'], [9], 8, false⟩, ⟨['b'], [4, 5], 0, true⟩]
      4096 (by decide) (by decide) (by decide)⟩

theorem startsWithChars_dash (l t : List Char) (ht : t.getD 0 ' ' ≠ '-') :
    startsWithChars ('-' :: l) t = false := by
  cases t with
  | nil => rfl
  | cons c cs =>
    have hc : ¬ c = '-' := fun h => ht (by simp [List.getD, h])
    have hb : ('-' == c) = false := by
      simp
      exact fun h => hc h.symm
    simp [startsWithChars, hb]

/-- A token that does not begin with a dash is consumed as a positional
argument. -/
theorem optScan_positional (t : List Char) (ht : t.getD 0 ' ' ≠ '-')
    (rest : List (List Char)) (bs : Nat) (pos : List (List Char)) :
    optScan (t :: rest) bs pos = optScan rest bs (t :: pos) := by
  have h1 : ¬ (t = helpShortTok ∨ t = helpLongTok) := by
    rintro (h | h) <;> exact ht (by rw [h]; rfl)
  have h2 : ¬ (t = blockSizeTok ∨ t = ['-', 'b']) := by
    rintro (h | h) <;> exact ht (by rw [h]; rfl)
  have h3 : startsWithChars (blockSizeTok ++ ['=']) t = false :=
    startsWithChars_dash _ t ht
  have h4 : ¬ (startsWithChars ['-', 'b'] t = true ∧ 2 < t.length) := by
    rintro ⟨h, _⟩
    rw [startsWithChars_dash _ t ht] at h
    exact Bool.noConfusion h
  have h5 : t ≠ ['-', '-'] := fun h => ht (by rw [h]; rfl)
  have h6 : ¬ (2 ≤ t.length ∧ t.getD 0 ' ' = '-') := fun h => ht h.2
  conv_lhs => rw [optScan.eq_def]
  simp only []
  rw [if_neg h1, if_neg h2, if_neg (by simp [h3]), if_neg h4, if_neg h5, if_neg h6]

/-- C7: the rewrite tool argument contract.  `-h`/`--help` exit 0
regardless of later arguments; a `--block-size` value that parses but is
not a nonzero power of two exits 1; with a valid block size but zero or
one positional arguments the tool exits 1; with two positionals but no
`--block-size` it exits 1; and with a full valid command line whose input
path does not exist it exits 1. -/
theorem optimizer_cli_contract (ex : List Char → Bool) (rest : List (List Char))
    (sB : List Char) (vBn : Nat) (sG : List Char) (vG : Nat) (inp out : List Char)
    (hb1 : stoullModel sB = some vBn)
    (hb2 : vBn = 0 ∨ vBn &&& (vBn - 1) ≠ 0)
    (hg1 : stoullModel sG = some vG)
    (hg2 : ¬ (vG = 0 ∨ vG &&& (vG - 1) ≠ 0))
    (hi : inp.getD 0 ' ' ≠ '-') (ho : out.getD 0 ' ' ≠ '-')
    (hex : ex inp = false) :
    optimizerCli ex (helpShortTok :: rest) = .exit 0 ∧
    optimizerCli ex (helpLongTok :: rest) = .exit 0 ∧
    optimizerCli ex (blockSizeTok :: sB :: rest) = .exit 1 ∧
    optimizerCli ex [blockSizeTok, sG] = .exit 1 ∧
    optimizerCli ex [blockSizeTok, sG, inp] = .exit 1 ∧
    optimizerCli ex [inp, out] = .exit 1 ∧
    optimizerCli ex [blockSizeTok, sG, inp, out] = .exit 1 := by
  have hpbB : parseBlockSize sB = none := by
    simp only [parseBlockSize, hb1]
    rw [if_pos hb2]
  have hpbG : parseBlockSize sG = some vG := by
    simp only [parseBlockSize, hg1]
    rw [if_neg hg2]
  have hvG : vG ≠ 0 := fun h => hg2 (Or.inl h)
  have hbs1 : ¬ (blockSizeTok = helpShortTok ∨ blockSizeTok = helpLongTok) := by decide
  have hbs2 : (blockSizeTok = blockSizeTok ∨ blockSizeTok = ['-', 'b']) := Or.inl rfl
  have hscanEmpty : ∀ b pos, optScan [] b pos = .ok b pos.reverse := by
    intro b pos
    rw [optScan.eq_def]
  have hscanBS : ∀ (v : List Char) (args2 : List (List Char)) (b : Nat)
      (pos : List (List Char)),
      optScan (blockSizeTok :: v :: args2) b pos =
        match parseBlockSize v with
        | none => .err
        | some b2 => optScan args2 b2 pos := by
    intro v args2 b pos
    conv_lhs => rw [optScan.eq_def]
    simp only []
    rw [if_neg hbs1]
    rw [if_pos (show True ∨ blockSizeTok = ['-', 'b'] from Or.inl trivial)]
  refine ⟨?_, ?_, ?_, ?_, ?_, ?_, ?_⟩
  · unfold optimizerCli
    rw [show optScan (helpShortTok :: rest) 0 [] = .help by
      conv_lhs => rw [optScan.eq_def]
      simp only []
      rw [if_pos (show True ∨ helpShortTok = helpLongTok from Or.inl trivial)]]
  · unfold optimizerCli
    rw [show optScan (helpLongTok :: rest) 0 [] = .help by
      conv_lhs => rw [optScan.eq_def]
      simp only []
      rw [if_pos (show helpLongTok = helpShortTok ∨ True from Or.inr trivial)]]
  · unfold optimizerCli
    rw [show optScan (blockSizeTok :: sB :: rest) 0 [] = .err by
      rw [hscanBS, hpbB]]
  · unfold optimizerCli
    rw [show optScan [blockSizeTok, sG] 0 [] = .ok vG [] by
      rw [hscanBS, hpbG]
      exact hscanEmpty vG []]
    rfl
  · unfold optimizerCli
    rw [show optScan [blockSizeTok, sG, inp] 0 [] = .ok vG [inp] by
      rw [hscanBS, hpbG]
      simp only []
      rw [optScan_positional inp hi]
      exact hscanEmpty vG [inp]]
    rfl
  · unfold optimizerCli
    rw [show optScan [inp, out] 0 [] = .ok 0 [inp, out] by
      rw [optScan_positional inp hi, optScan_positional out ho]
      exact hscanEmpty 0 [out, inp]]
    rfl
  · unfold optimizerCli
    rw [show optScan [blockSizeTok, sG, inp, out] 0 [] = .ok vG [inp, out] by
      rw [hscanBS, hpbG]
      simp only []
      rw [optScan_positional inp hi, optScan_positional out ho]
      exact hscanEmpty vG [out, inp]]
    simp [hvG, hex]

/-- C7 witness: concrete invocations — `-h`, `--help`, `--block-size 3000`
(not a power of two), `--block-size 512` with too few positionals, no
block size, and a nonexistent input `in.zip` with output `out.zip`. -/
theorem optimizer_cli_contract_witness :
    stoullModel ['3', '0', '0', '0'] = some 3000 ∧
    (3000 = 0 ∨ 3000 &&& (3000 - 1) ≠ 0) ∧
    stoullModel ['5', '1', '2'] = some 512 ∧
    ¬ ((512 : Nat) = 0 ∨ 512 &&& (512 - 1) ≠ 0) ∧
    (['i', 'n', '.', 'z', 'i', 'p'] : List Char).getD 0 ' ' ≠ '-' ∧
    (['o', 'u', 't', '.', 'z', 'i', 'p'] : List Char).getD 0 ' ' ≠ '-' ∧
    (fun _ => false : List Char → Bool) ['i', 'n', '.', 'z', 'i', 'p'] = false ∧
    (optimizerCli (fun _ => false) (helpShortTok :: []) = .exit 0 ∧
     optimizerCli (fun _ => false) (helpLongTok :: []) = .exit 0 ∧
     optimizerCli (fun _ => false) (blockSizeTok :: ['3', '0', '0', '0'] :: []) = .exit 1 ∧
     optimizerCli (fun _ => false) [blockSizeTok, ['5', '1', '2']] = .exit 1 ∧
     optimizerCli (fun _ => false)
       [blockSizeTok, ['5', '1', '2'], ['i', 'n', '.', 'z', 'i', 'p']] = .exit 1 ∧
     optimizerCli (fun _ => false)
       [['i', 'n', '.', 'z', 'i', 'p'], ['o', 'u', 't', '.', 'z', 'i', 'p']] = .exit 1 ∧
     optimizerCli (fun _ => false)
       [blockSizeTok, ['5', '1', '2'], ['i', 'n', '.', 'z', 'i', 'p'],
         ['o', 'u', 't', '.', 'z', 'i', 'p']] = .exit 1) :=
  ⟨by decide, by decide, by decide, by decide, by decide, by decide, rfl,
    optimizer_cli_contract (fun _ => false) []
      ['3', '0', '0', '0'] 3000 ['5', '1', '2'] 512
      ['i', 'n', '.', 'z', 'i', 'p'] ['o', 'u', 't', '.', 'z', 'i', 'p']
      (by decide) (by decide) (by decide) (by decide) (by decide) (by decide) rfl⟩

/-- C8 counterexample: a successful run whose output is not larger than
the input (for example an archive that was already stored, with equal
sizes) prints no percentage size-change line, refuting the claim that
every successful run's summary includes the percentage. -/
theorem summary_percent_missing_counterexample :
    SummaryItem.sizeChangePercent ∉ successSummary 1 0 4096 100 100 := by
  decide

/-- C8 (amended): every successful run's summary includes files
processed, files decompressed, block size, input size and output size;
the percentage size-change line is included exactly when the output is
strictly larger than the input. -/
theorem summary_contents (fp fd bs inSz outSz : Nat) :
    SummaryItem.filesProcessed fp ∈ successSummary fp fd bs inSz outSz ∧
    SummaryItem.filesDecompressed fd ∈ successSummary fp fd bs inSz outSz ∧
    SummaryItem.blockSize bs ∈ successSummary fp fd bs inSz outSz ∧
    SummaryItem.inputSize inSz ∈ successSummary fp fd bs inSz outSz ∧
    SummaryItem.outputSize outSz ∈ successSummary fp fd bs inSz outSz ∧
    (SummaryItem.sizeChangePercent ∈ successSummary fp fd bs inSz outSz ↔ inSz < outSz) := by
  unfold successSummary
  by_cases h : inSz < outSz
  · simp [h]
  · simp [h]

end ScalableZipFs
